import Mathlib

/-!
Verification of the audio metrics calculator of `src/app/api/analyze/route.js`
(function `analyzeAudio`) and of the feedback-fallback logic of the `POST`
handler. Samples are modelled as real numbers (`List ℝ`), JavaScript's
`Math.sqrt` / `Math.log10` as `Real.sqrt` / `Real.logb 10`, and
`Number.prototype.toFixed` as exact decimal rounding (round half away from
zero on the magnitude, the ECMAScript rule) rendered as a decimal string.
-/

noncomputable section

namespace StemTalk

/-- The record returned by `analyzeAudio`: four string-formatted metrics and
a numeric `stereoWidth`, mirroring the object literal in the source. -/
structure MetricsRecord where
  rms : String
  peak : String
  dynamicRange : String
  lufs : String
  stereoWidth : ℝ
  deriving DecidableEq

/-- Source `samples.reduce((a, v) => a + v * v, 0)` — the sum of squares. -/
def sumSq (samples : List ℝ) : ℝ :=
  samples.foldl (fun a v => a + v * v) 0

/-- Source `samples.reduce((a, v) => a + v, 0)` — the plain sum. -/
def sumAll (samples : List ℝ) : ℝ :=
  samples.foldl (fun a v => a + v) 0

/-- Source `Math.max(...l)` on a non-empty list: fold of `max` over the elements.
The `[]` case is never reached from `analyzeAudio`'s non-empty branch. -/
def listMax : List ℝ → ℝ
  | [] => 0
  | x :: xs => xs.foldl max x

/-- Source `const rms = Math.sqrt(samples.reduce((a, v) => a + v * v, 0) / n)`. -/
def rmsVal (samples : List ℝ) : ℝ :=
  Real.sqrt (sumSq samples / samples.length)

/-- Source `const peak = Math.max(...samples.map((v) => Math.abs(v)))`. -/
def peakVal (samples : List ℝ) : ℝ :=
  listMax (samples.map (fun v => |v|))

/-- Source `const dr = peak > 0 && rms > 0 ? 20 * Math.log10(peak / rms) : 0`. -/
def drVal (samples : List ℝ) : ℝ :=
  if 0 < peakVal samples ∧ 0 < rmsVal samples then
    20 * Real.logb 10 (peakVal samples / rmsVal samples)
  else 0

/-- Source `const lufs = -0.691 + 10 * Math.log10(Math.max(rms ** 2, 1e-12))`. -/
def lufsVal (samples : List ℝ) : ℝ :=
  -0.691 + 10 * Real.logb 10 (max (rmsVal samples ^ 2) 1e-12)

/-- Source `const mean = samples.reduce((a, v) => a + v, 0) / n`. -/
def meanVal (samples : List ℝ) : ℝ :=
  sumAll samples / samples.length

/-- Source `const stereoWidth = Math.abs(mean) < 0.01 ? 0.7 : 0.9`. -/
def stereoWidthVal (samples : List ℝ) : ℝ :=
  if |meanVal samples| < 0.01 then 0.7 else 0.9

/-- The exactly `d`-character zero-padded decimal rendering of `r`
(the fractional digits of a fixed-point string), least significant digit
last. -/
def natDigitsPadded (r : ℕ) : ℕ → List Char
  | 0 => []
  | d + 1 => natDigitsPadded (r / 10) d ++ [Nat.digitChar (r % 10)]

/-- Formatting `toFixed` on a nonnegative real: round `x` to `d` decimal places
(ties away from zero, i.e. toward the larger integer numerator) and render
`intPart.fracDigits`. -/
def fixedNonneg (x : ℝ) (d : ℕ) : String :=
  if d = 0 then Nat.repr ⌊x + 1/2⌋₊
  else
    Nat.repr (⌊x * 10 ^ d + 1/2⌋₊ / 10 ^ d) ++ "." ++
      String.mk (natDigitsPadded (⌊x * 10 ^ d + 1/2⌋₊ % 10 ^ d) d)

/-- Source `Number.prototype.toFixed`: format the magnitude, prefixing `-` for a
negative number. -/
def toFixed (x : ℝ) (d : ℕ) : String :=
  if x < 0 then "-" ++ fixedNonneg (-x) d else fixedNonneg x d

/-- The sentinel record returned for an empty sample buffer. -/
def emptyRecord : MetricsRecord :=
  { rms := "0.000", peak := "0.000", dynamicRange := "0.00",
    lufs := "0.00", stereoWidth := 0 }

/-- Source `analyzeAudio(samples, sampleRate)` from `src/app/api/analyze/route.js`:
the empty-buffer sentinel, otherwise the five metrics with the string
fields formatted by `toFixed`. `sampleRate` is a parameter of the source
function and is never read in its body. -/
def analyzeAudio (samples : List ℝ) (sampleRate : ℝ) : MetricsRecord :=
  if samples.length = 0 then emptyRecord
  else
    { rms := toFixed (rmsVal samples) 3
      peak := toFixed (peakVal samples) 3
      dynamicRange := toFixed (drVal samples) 2
      lufs := toFixed (lufsVal samples) 2
      stereoWidth := stereoWidthVal samples }

/-- The fallback feedback object built in the `catch` branch of the
`JSON.parse(aiText)` attempt: `{ mixSummary: aiText.trim(), recommendations: [] }`. -/
structure Fallback where
  mixSummary : String
  recommendations : List String
  deriving DecidableEq

/-- JavaScript `String.prototype.trim()`: drop whitespace from both ends,
modelled structurally on the character list. -/
def jsTrim (s : String) : String :=
  String.mk
    (((s.toList.dropWhile Char.isWhitespace).reverse.dropWhile
        Char.isWhitespace).reverse)

/-- Source `let feedback; try { feedback = JSON.parse(aiText) } catch { feedback =
{ mixSummary: aiText.trim(), recommendations: [] } }` — `JSON.parse` is
modelled as a fallible parser returning `Option J`, and the `try/catch` as
the `Option` match. -/
def buildFeedback {J : Type} (parse : String → Option J) (aiText : String) :
    J ⊕ Fallback :=
  match parse aiText with
  | some j => Sum.inl j
  | none => Sum.inr { mixSummary := jsTrim aiText, recommendations := [] }

/-- The success response `NextResponse.json({ analysis, feedback, metadata })`
at the end of `POST`. -/
structure SuccessResponse (J M : Type) where
  analysis : MetricsRecord
  feedback : J ⊕ Fallback
  metadata : M

/-- The tail of the `POST` handler after the completion call returned
`aiText`: build the feedback (with fallback) and answer with the analysis
record unchanged. -/
def respondWithFeedback {J M : Type} (parse : String → Option J)
    (analysis : MetricsRecord) (metadata : M) (aiText : String) :
    SuccessResponse J M :=
  { analysis := analysis
    feedback := buildFeedback parse aiText
    metadata := metadata }

/-- The characters following the last `.` of a string (in order): the
fractional digits of a fixed-point rendering. -/
def fracPart (s : String) : List Char :=
  (s.toList.reverse.takeWhile (fun c => c != '.')).reverse

/-- Predicate: `s` is a fixed-point string with exactly `d` characters after its
decimal point, all of them digits. -/
def fracFormatted (s : String) (d : ℕ) : Prop :=
  '.' ∈ s.toList ∧ (fracPart s).length = d ∧
    ∀ c ∈ fracPart s, c.isDigit = true

end StemTalk

namespace StemTalk

/-- C1: for the empty sample buffer (length 0), `analyzeAudio` returns
exactly the sentinel record `rms="0.000", peak="0.000", dynamicRange="0.00",
lufs="0.00", stereoWidth=0`, for every sample rate. -/
theorem empty_buffer_sentinel (samples : List ℝ) (sampleRate : ℝ)
    (h : samples.length = 0) :
    analyzeAudio samples sampleRate =
      { rms := "0.000", peak := "0.000", dynamicRange := "0.00",
        lufs := "0.00", stereoWidth := 0 } := by
  simp [analyzeAudio, h, emptyRecord]

/-- C1 witness: the sentinel at the concrete empty buffer and rate 44100. -/
theorem empty_buffer_sentinel_witness :
    ([] : List ℝ).length = 0 ∧
      analyzeAudio [] 44100 =
        { rms := "0.000", peak := "0.000", dynamicRange := "0.00",
          lufs := "0.00", stereoWidth := 0 } :=
  ⟨rfl, empty_buffer_sentinel [] 44100 rfl⟩

/-- C7: `analyzeAudio` does not depend on its `sampleRate` argument: the
same buffer at any two rates yields the same record. -/
theorem sampleRate_irrelevant (samples : List ℝ) (r1 r2 : ℝ) :
    analyzeAudio samples r1 = analyzeAudio samples r2 := rfl

/-- The square-accumulating fold equals the accumulator plus the sum of the
squares. -/
lemma foldl_sq_eq (samples : List ℝ) (a : ℝ) :
    samples.foldl (fun a v => a + v * v) a
      = a + (samples.map (fun v => v * v)).sum := by
  induction samples generalizing a with
  | nil => simp
  | cons x xs ih => simp [ih, add_assoc]

/-- The plain accumulating fold equals the accumulator plus the sum. -/
lemma foldl_add_eq (samples : List ℝ) (a : ℝ) :
    samples.foldl (fun a v => a + v) a = a + samples.sum := by
  induction samples generalizing a with
  | nil => simp
  | cons x xs ih => simp [ih, add_assoc]

/-- The fold `sumSq` is the sum of the squared samples. -/
lemma sumSq_eq (samples : List ℝ) :
    sumSq samples = (samples.map (fun v => v * v)).sum := by
  simpa using foldl_sq_eq samples 0

/-- The fold `sumAll` is the sum of the samples. -/
lemma sumAll_eq (samples : List ℝ) : sumAll samples = samples.sum := by
  simpa using foldl_add_eq samples 0

/-- A fold of `max` is at least its initial accumulator. -/
lemma init_le_foldl_max (xs : List ℝ) (a : ℝ) : a ≤ xs.foldl max a := by
  induction xs generalizing a with
  | nil => exact le_refl a
  | cons x xs ih => exact le_trans (le_max_left a x) (ih (max a x))

/-- A fold of `max` is at least every list element. -/
lemma mem_le_foldl_max (xs : List ℝ) (a : ℝ) :
    ∀ y ∈ xs, y ≤ xs.foldl max a := by
  induction xs generalizing a with
  | nil => intro y hy; cases hy
  | cons x xs ih =>
    intro y hy
    rcases List.mem_cons.mp hy with rfl | h
    · exact le_trans (le_max_right a y) (init_le_foldl_max xs (max a y))
    · exact ih (max a x) y h

/-- A fold of `max` is either the initial accumulator or a list element. -/
lemma foldl_max_eq_init_or_mem (xs : List ℝ) (a : ℝ) :
    xs.foldl max a = a ∨ xs.foldl max a ∈ xs := by
  induction xs generalizing a with
  | nil => exact Or.inl rfl
  | cons x xs ih =>
    rcases ih (max a x) with h | h
    · rcases max_choice a x with hc | hc
      · exact Or.inl (by rw [List.foldl_cons, h, hc])
      · exact Or.inr (by rw [List.foldl_cons, h, hc]; exact List.mem_cons_self x xs)
    · exact Or.inr (List.mem_cons_of_mem x h)

/-- On a non-empty buffer, `peakVal` is the absolute value of some sample. -/
lemma peakVal_mem (samples : List ℝ) (h : samples ≠ []) :
    ∃ v ∈ samples, peakVal samples = |v| := by
  cases samples with
  | nil => exact absurd rfl h
  | cons s ss =>
    unfold peakVal listMax
    rcases foldl_max_eq_init_or_mem (ss.map (fun v => |v|)) |s| with hi | hm
    · exact ⟨s, List.mem_cons_self s ss, by simp [hi]⟩
    · rcases List.mem_map.mp hm with ⟨v, hv, hveq⟩
      exact ⟨v, List.mem_cons_of_mem s hv, by simp [← hveq]⟩

/-- Every sample's absolute value is bounded by `peakVal`. -/
lemma abs_le_peakVal (samples : List ℝ) :
    ∀ v ∈ samples, |v| ≤ peakVal samples := by
  intro v hv
  cases samples with
  | nil => cases hv
  | cons s ss =>
    rcases List.mem_cons.mp hv with rfl | h
    · exact init_le_foldl_max (ss.map (fun w => |w|)) |v|
    · exact mem_le_foldl_max (ss.map (fun w => |w|)) |s| |v|
        (List.mem_map.mpr ⟨v, h, rfl⟩)

/-- On a non-empty buffer, `peakVal` is nonnegative. -/
lemma peakVal_nonneg (samples : List ℝ) (h : samples ≠ []) :
    0 ≤ peakVal samples := by
  rcases peakVal_mem samples h with ⟨v, _, hv⟩
  rw [hv]; exact abs_nonneg v

/-- The value `rmsVal` is nonnegative (it is a square root). -/
lemma rmsVal_nonneg (samples : List ℝ) : 0 ≤ rmsVal samples :=
  Real.sqrt_nonneg _

/-- The sum of squares is nonnegative. -/
lemma sumSq_nonneg (samples : List ℝ) : 0 ≤ sumSq samples := by
  rw [sumSq_eq]
  exact List.sum_nonneg (by
    intro x hx
    rcases List.mem_map.mp hx with ⟨v, _, hv⟩
    exact hv ▸ mul_self_nonneg v)

/-- C2: on a non-empty buffer the unformatted `rms` is the square root of
the mean square, the unformatted `peak` is a greatest absolute sample
value, and both are nonnegative. -/
theorem rms_peak_formulas (samples : List ℝ) (h : samples ≠ []) :
    rmsVal samples
        = Real.sqrt ((samples.map (fun v => v * v)).sum / samples.length) ∧
      (∀ v ∈ samples, |v| ≤ peakVal samples) ∧
      (∃ v ∈ samples, peakVal samples = |v|) ∧
      0 ≤ rmsVal samples ∧ 0 ≤ peakVal samples := by
  refine ⟨?_, abs_le_peakVal samples, peakVal_mem samples h,
    rmsVal_nonneg samples, peakVal_nonneg samples h⟩
  rw [rmsVal, sumSq_eq]

/-- C2 witness: the formulas instantiated at the buffer `[1, -2]`. -/
theorem rms_peak_formulas_witness :
    (([1, -2] : List ℝ) ≠ []) ∧
      (rmsVal [1, -2]
          = Real.sqrt ((([1, -2] : List ℝ).map (fun v => v * v)).sum /
              ([1, -2] : List ℝ).length) ∧
        (∀ v ∈ ([1, -2] : List ℝ), |v| ≤ peakVal [1, -2]) ∧
        (∃ v ∈ ([1, -2] : List ℝ), peakVal [1, -2] = |v|) ∧
        0 ≤ rmsVal [1, -2] ∧ 0 ≤ peakVal [1, -2]) :=
  ⟨by simp, rms_peak_formulas [1, -2] (by simp)⟩

/-- A non-empty buffer has positive real length. -/
lemma length_pos_real (samples : List ℝ) (h : samples ≠ []) :
    0 < (samples.length : ℝ) := by
  have hn : samples.length ≠ 0 := fun hc => h (List.length_eq_zero.mp hc)
  exact_mod_cast Nat.pos_of_ne_zero hn

/-- The sum of squares is bounded by the length times the squared peak. -/
lemma sumSq_le_length_mul_peak_sq (samples : List ℝ) :
    sumSq samples ≤ samples.length * peakVal samples ^ 2 := by
  rw [sumSq_eq]
  have hb : ∀ x ∈ samples.map (fun v => v * v), x ≤ peakVal samples ^ 2 := by
    intro x hx
    rcases List.mem_map.mp hx with ⟨v, hv, rfl⟩
    calc v * v = |v| * |v| := (abs_mul_abs_self v).symm
      _ ≤ peakVal samples * peakVal samples :=
          mul_self_le_mul_self (abs_nonneg v) (abs_le_peakVal samples v hv)
      _ = peakVal samples ^ 2 := (sq (peakVal samples)).symm
  have := List.sum_le_card_nsmul (samples.map (fun v => v * v))
    (peakVal samples ^ 2) hb
  simpa [nsmul_eq_mul] using this

/-- On a non-empty buffer the RMS never exceeds the peak. -/
lemma rmsVal_le_peakVal (samples : List ℝ) (h : samples ≠ []) :
    rmsVal samples ≤ peakVal samples := by
  have hn := length_pos_real samples h
  have hdiv : sumSq samples / samples.length ≤ peakVal samples ^ 2 := by
    rw [div_le_iff₀ hn, mul_comm]
    exact sumSq_le_length_mul_peak_sq samples
  calc rmsVal samples ≤ Real.sqrt (peakVal samples ^ 2) :=
        Real.sqrt_le_sqrt hdiv
    _ = |peakVal samples| := Real.sqrt_sq_eq_abs _
    _ = peakVal samples := abs_of_nonneg (peakVal_nonneg samples h)

/-- On a non-empty buffer the dynamic-range value is nonnegative. -/
lemma drVal_nonneg (samples : List ℝ) (h : samples ≠ []) :
    0 ≤ drVal samples := by
  unfold drVal
  split
  · next hc =>
      have h1 : 1 ≤ peakVal samples / rmsVal samples :=
        (one_le_div hc.2).mpr (rmsVal_le_peakVal samples h)
      have h2 := Real.logb_nonneg (by norm_num : (1:ℝ) < 10) h1
      linarith
  · exact le_refl 0

/-- C10: for every non-empty buffer the computed peak dominates the
computed RMS, hence the unformatted dynamic range is nonnegative. -/
theorem peak_dominates_rms (samples : List ℝ) (h : samples ≠ []) :
    rmsVal samples ≤ peakVal samples ∧ 0 ≤ drVal samples :=
  ⟨rmsVal_le_peakVal samples h, drVal_nonneg samples h⟩

/-- C10 witness: the bound instantiated at the buffer `[1, -2]`. -/
theorem peak_dominates_rms_witness :
    (([1, -2] : List ℝ) ≠ []) ∧
      (rmsVal [1, -2] ≤ peakVal [1, -2] ∧ 0 ≤ drVal [1, -2]) :=
  ⟨by simp, peak_dominates_rms [1, -2] (by simp)⟩

/-- An all-zero buffer has RMS zero. -/
lemma rmsVal_all_zero (samples : List ℝ) (hz : ∀ v ∈ samples, v = 0) :
    rmsVal samples = 0 := by
  have hs : sumSq samples = 0 := by
    rw [sumSq_eq]
    refine List.sum_eq_zero ?_
    intro x hx
    rcases List.mem_map.mp hx with ⟨v, hv, rfl⟩
    rw [hz v hv, mul_zero]
  rw [rmsVal, hs, zero_div, Real.sqrt_zero]

/-- A non-empty all-zero buffer has peak zero. -/
lemma peakVal_all_zero (samples : List ℝ) (h : samples ≠ [])
    (hz : ∀ v ∈ samples, v = 0) : peakVal samples = 0 := by
  rcases peakVal_mem samples h with ⟨v, hv, hpv⟩
  rw [hpv, hz v hv, abs_zero]

/-- C3: on a non-empty buffer the dynamic range is
`20 * log10(peak / rms)` when both peak and RMS are positive and `0`
otherwise; in particular an all-zero buffer yields exactly `0`. -/
theorem dynamicRange_guard (samples : List ℝ) (h : samples ≠ []) :
    (0 < peakVal samples → 0 < rmsVal samples →
        drVal samples = 20 * Real.logb 10 (peakVal samples / rmsVal samples)) ∧
      (peakVal samples = 0 ∨ rmsVal samples = 0 → drVal samples = 0) ∧
      ((∀ v ∈ samples, v = 0) →
        rmsVal samples = 0 ∧ peakVal samples = 0 ∧ drVal samples = 0) := by
  have hguard : ∀ _ : peakVal samples = 0 ∨ rmsVal samples = 0,
      drVal samples = 0 := by
    intro hz
    rw [drVal, if_neg]
    rintro ⟨hp, hr⟩
    rcases hz with hz | hz
    · exact absurd hz hp.ne'
    · exact absurd hz hr.ne'
  refine ⟨fun hp hr => ?_, hguard, fun hzero => ?_⟩
  · rw [drVal, if_pos ⟨hp, hr⟩]
  · have h1 := rmsVal_all_zero samples hzero
    have h2 := peakVal_all_zero samples h hzero
    exact ⟨h1, h2, hguard (Or.inl h2)⟩

/-- C3 witness: the all-zero buffer `[0, 0]` yields a zero dynamic range. -/
theorem dynamicRange_guard_witness :
    (([0, 0] : List ℝ) ≠ []) ∧
      rmsVal [0, 0] = 0 ∧ peakVal [0, 0] = 0 ∧ drVal [0, 0] = 0 :=
  ⟨by simp, (dynamicRange_guard [0, 0] (by simp)).2.2 (by simp)⟩

/-- The `log10` of the literal floor `1e-12` is `-12`. -/
lemma logb_ten_floor : Real.logb 10 (1e-12 : ℝ) = -12 := by
  have h : (1e-12 : ℝ) = ((10 : ℝ) ^ (12 : ℕ))⁻¹ := by norm_num
  rw [h, Real.logb_inv, Real.logb_pow, Real.logb_self_eq_one] <;> norm_num

/-- C4: on a non-empty buffer `lufs = -0.691 + 10*log10(max(rms², 1e-12))`,
with the floor active exactly when `rms² ≤ 1e-12`; an all-zero buffer gives
the finite value `-0.691 - 120`. -/
theorem lufs_formula (samples : List ℝ) (h : samples ≠ []) :
    ((1e-12 : ℝ) ≤ rmsVal samples ^ 2 →
        lufsVal samples = -0.691 + 10 * Real.logb 10 (rmsVal samples ^ 2)) ∧
      (rmsVal samples ^ 2 ≤ (1e-12 : ℝ) →
        lufsVal samples = -0.691 + 10 * Real.logb 10 (1e-12 : ℝ)) ∧
      ((∀ v ∈ samples, v = 0) → lufsVal samples = -0.691 - 120) := by
  refine ⟨fun hge => ?_, fun hle => ?_, fun hzero => ?_⟩
  · rw [lufsVal, max_eq_left hge]
  · rw [lufsVal, max_eq_right hle]
  · have h1 := rmsVal_all_zero samples hzero
    rw [lufsVal, h1]
    rw [max_eq_right (by norm_num : ((0:ℝ) ^ 2 ≤ (1e-12 : ℝ)))]
    rw [logb_ten_floor]
    norm_num

/-- C4 witness: the all-zero buffer `[0, 0, 0]` yields `-120.691`. -/
theorem lufs_formula_witness :
    (([0, 0, 0] : List ℝ) ≠ []) ∧ lufsVal [0, 0, 0] = -0.691 - 120 :=
  ⟨by simp, (lufs_formula [0, 0, 0] (by simp)).2.2 (by simp)⟩

/-- Folding `max` over copies of the accumulator leaves it unchanged. -/
lemma foldl_max_replicate (m : ℕ) (a : ℝ) :
    (List.replicate m a).foldl max a = a := by
  induction m with
  | zero => rfl
  | succ k ih => rw [List.replicate_succ, List.foldl_cons, max_self]; exact ih

/-- The peak of a non-empty constant buffer is the absolute value. -/
lemma peakVal_replicate (n : ℕ) (hn : 0 < n) (c : ℝ) :
    peakVal (List.replicate n c) = |c| := by
  cases n with
  | zero => exact absurd hn (by norm_num)
  | succ m =>
    rw [peakVal, List.map_replicate, List.replicate_succ]
    exact foldl_max_replicate m |c|

/-- The sum of squares of a constant buffer. -/
lemma sumSq_replicate (n : ℕ) (c : ℝ) :
    sumSq (List.replicate n c) = n * (c * c) := by
  rw [sumSq_eq, List.map_replicate, List.sum_replicate, nsmul_eq_mul]

/-- The RMS of a non-empty constant buffer is the absolute value. -/
lemma rmsVal_replicate (n : ℕ) (hn : 0 < n) (c : ℝ) :
    rmsVal (List.replicate n c) = |c| := by
  have hn' : (n : ℝ) ≠ 0 := by exact_mod_cast hn.ne'
  rw [rmsVal, sumSq_replicate, List.length_replicate,
    mul_div_cancel_left₀ _ hn']
  rw [show c * c = c ^ 2 from (sq c).symm, Real.sqrt_sq_eq_abs]

/-- C8: a non-empty constant buffer of value `c ≠ 0` yields
`rms = |c|`, `peak = |c|` and `dynamicRange = 0`. -/
theorem constant_buffer (c : ℝ) (n : ℕ) (hc : c ≠ 0) (hn : 0 < n) :
    rmsVal (List.replicate n c) = |c| ∧
      peakVal (List.replicate n c) = |c| ∧
      drVal (List.replicate n c) = 0 := by
  have hr := rmsVal_replicate n hn c
  have hp := peakVal_replicate n hn c
  have habs : 0 < |c| := abs_pos.mpr hc
  refine ⟨hr, hp, ?_⟩
  rw [drVal, if_pos ⟨hp ▸ habs, hr ▸ habs⟩, hr, hp,
    div_self habs.ne', Real.logb_one, mul_zero]

/-- C8 witness: the constant buffer `[2, 2, 2]`. -/
theorem constant_buffer_witness :
    ((2 : ℝ) ≠ 0 ∧ 0 < 3) ∧
      (rmsVal (List.replicate 3 (2 : ℝ)) = |(2 : ℝ)| ∧
        peakVal (List.replicate 3 (2 : ℝ)) = |(2 : ℝ)| ∧
        drVal (List.replicate 3 (2 : ℝ)) = 0) :=
  ⟨⟨by norm_num, by norm_num⟩, constant_buffer 2 3 (by norm_num) (by norm_num)⟩

/-- On a non-empty buffer, the numeric `stereoWidth` field of the record is
the heuristic value. -/
lemma analyzeAudio_stereoWidth (samples : List ℝ) (r : ℝ)
    (h : samples ≠ []) :
    (analyzeAudio samples r).stereoWidth = stereoWidthVal samples := by
  rw [analyzeAudio, if_neg (fun hc => h (List.length_eq_zero.mp hc))]

/-- The mean of the concrete buffer `[0.5, 0.5, 0.5, 0.5, 0.6]`. -/
lemma meanVal_example : meanVal [0.5, 0.5, 0.5, 0.5, 0.6] = 0.52 := by
  norm_num [meanVal, sumAll]

/-- C5: the `stereoWidth` of the record is `0.7` when `|mean| < 0.01` and
`0.9` otherwise (non-empty buffer); over all inputs it lies in
`{0, 0.7, 0.9}`; the buffer `[0.5, 0.5, 0.5, 0.5, 0.6]` yields `0.9`. -/
theorem stereoWidth_rule (samples : List ℝ) (r : ℝ) :
    ((analyzeAudio samples r).stereoWidth = 0 ∨
        (analyzeAudio samples r).stereoWidth = 0.7 ∨
        (analyzeAudio samples r).stereoWidth = 0.9) ∧
      (samples ≠ [] →
        (|meanVal samples| < 0.01 →
            (analyzeAudio samples r).stereoWidth = 0.7) ∧
          (¬ |meanVal samples| < 0.01 →
            (analyzeAudio samples r).stereoWidth = 0.9)) ∧
      (analyzeAudio [0.5, 0.5, 0.5, 0.5, 0.6] r).stereoWidth = 0.9 := by
  have hcase : ∀ t : List ℝ, t ≠ [] →
      (|meanVal t| < 0.01 → (analyzeAudio t r).stereoWidth = 0.7) ∧
        (¬ |meanVal t| < 0.01 → (analyzeAudio t r).stereoWidth = 0.9) := by
    intro t ht
    rw [analyzeAudio_stereoWidth t r ht]
    exact ⟨fun hm => by rw [stereoWidthVal, if_pos hm],
      fun hm => by rw [stereoWidthVal, if_neg hm]⟩
  have hconc : (analyzeAudio [0.5, 0.5, 0.5, 0.5, 0.6] r).stereoWidth = 0.9 := by
    refine (hcase [0.5, 0.5, 0.5, 0.5, 0.6] (by simp)).2 ?_
    rw [meanVal_example]
    rw [not_lt, abs_of_nonneg (by norm_num : (0:ℝ) ≤ 0.52)]
    norm_num
  refine ⟨?_, hcase samples, hconc⟩
  by_cases h : samples = []
  · subst h
    exact Or.inl (by rw [analyzeAudio]; rfl)
  · rcases lt_or_ge |meanVal samples| 0.01 with hm | hm
    · exact Or.inr (Or.inl ((hcase samples h).1 hm))
    · exact Or.inr (Or.inr ((hcase samples h).2 (not_lt.mpr hm)))

/-- C5 witness: the buffer `[1]` has mean `1`, so the width is `0.9`. -/
theorem stereoWidth_rule_witness :
    (([1] : List ℝ) ≠ [] ∧ ¬ |meanVal [1]| < 0.01) ∧
      (analyzeAudio [1] 44100).stereoWidth = 0.9 :=
  ⟨⟨by simp, by norm_num [meanVal, sumAll]⟩,
    ((stereoWidth_rule [1] 44100).2.1 (by simp)).2
      (by norm_num [meanVal, sumAll])⟩

/-- C6: when the completion text fails to parse as JSON, the response is a
success whose feedback is exactly the fallback
`{ mixSummary: trimmed raw text, recommendations: [] }` and whose analysis
record is unchanged. -/
theorem malformed_feedback_fallback {J M : Type} (parse : String → Option J)
    (analysis : MetricsRecord) (metadata : M) (aiText : String)
    (h : parse aiText = none) :
    respondWithFeedback parse analysis metadata aiText =
      { analysis := analysis
        feedback :=
          Sum.inr { mixSummary := jsTrim aiText, recommendations := [] }
        metadata := metadata } := by
  simp [respondWithFeedback, buildFeedback, h]

/-- C6 witness: an always-failing parser on the text `" not json "` yields
the fallback with the trimmed text and an empty recommendation list. -/
theorem malformed_feedback_fallback_witness :
    ((fun _ : String => (none : Option Unit)) " not json " = none) ∧
      respondWithFeedback (fun _ : String => (none : Option Unit))
          emptyRecord () " not json " =
        { analysis := emptyRecord
          feedback :=
            Sum.inr { mixSummary := "not json", recommendations := [] }
          metadata := () } :=
  ⟨rfl, by
    rw [malformed_feedback_fallback (fun _ : String => (none : Option Unit))
      emptyRecord () " not json " rfl]
    rfl⟩

/-- A digit index below ten renders to a digit character. -/
lemma digitChar_isDigit (k : ℕ) (hk : k < 10) :
    (Nat.digitChar k).isDigit = true := by
  interval_cases k <;> decide

/-- The rendering `natDigitsPadded` always produces exactly `d` characters. -/
lemma natDigitsPadded_length (r d : ℕ) :
    (natDigitsPadded r d).length = d := by
  induction d generalizing r with
  | zero => rfl
  | succ m ih => simp [natDigitsPadded, ih]

/-- Every character produced by `natDigitsPadded` is a digit. -/
lemma natDigitsPadded_isDigit (r d : ℕ) :
    ∀ c ∈ natDigitsPadded r d, c.isDigit = true := by
  induction d generalizing r with
  | zero => intro c hc; cases hc
  | succ m ih =>
    intro c hc
    rw [natDigitsPadded] at hc
    rcases List.mem_append.mp hc with h | h
    · exact ih (r / 10) c h
    · rw [List.mem_singleton.mp h]
      exact digitChar_isDigit _ (Nat.mod_lt r (by norm_num))

/-- A digit character is not a decimal point. -/
lemma isDigit_ne_dot (c : Char) (h : c.isDigit = true) :
    (c != ('.' : Char)) = true := by
  rcases eq_or_ne c '.' with rfl | hne
  · exact absurd h (by decide)
  · simpa [bne_iff_ne] using hne

/-- A `takeWhile` over a list that satisfies the predicate followed by a
failing element returns exactly the prefix. -/
lemma takeWhile_append_stop (p : Char → Bool) (l1 l2 : List Char) (c : Char)
    (h1 : ∀ x ∈ l1, p x = true) (hc : p c = false) :
    (l1 ++ c :: l2).takeWhile p = l1 := by
  induction l1 with
  | nil => simp [List.takeWhile_cons, hc]
  | cons x xs ih =>
    have hx : p x = true := h1 x (List.mem_cons_self x xs)
    simp [List.takeWhile_cons, hx,
      ih (fun y hy => h1 y (List.mem_cons_of_mem x hy))]

/-- If a string's characters split as `A ++ '.' :: P` with no point in `P`,
then its fractional part is `P` and it contains a point. -/
lemma fracPart_of_split (s : String) (A P : List Char)
    (hs : s.toList = A ++ '.' :: P) (hP : ∀ c ∈ P, (c != ('.' : Char)) = true) :
    fracPart s = P ∧ '.' ∈ s.toList := by
  constructor
  · rw [fracPart, hs]
    have hrev : (A ++ '.' :: P).reverse = P.reverse ++ '.' :: A.reverse := by
      simp
    rw [hrev, takeWhile_append_stop _ _ _ _
      (fun y hy => hP y (List.mem_reverse.mp hy)) (by decide),
      List.reverse_reverse]
  · rw [hs]
    exact List.mem_append.mpr (Or.inr (List.mem_cons_self _ _))

/-- For positive precision, `fixedNonneg` splits as an integer part, a
point, and exactly the padded fractional digits. -/
lemma fixedNonneg_split (x : ℝ) (d : ℕ) (hd : d ≠ 0) :
    (fixedNonneg x d).toList =
      (Nat.repr (⌊x * 10 ^ d + 1/2⌋₊ / 10 ^ d)).toList ++
        '.' :: natDigitsPadded (⌊x * 10 ^ d + 1/2⌋₊ % 10 ^ d) d := by
  rw [fixedNonneg, if_neg hd]
  show (Nat.repr _ ++ "." ++ String.mk _).data = _
  rw [String.data_append, String.data_append]
  rw [show ("." : String).data = ['.'] from rfl, List.append_assoc]
  rfl

/-- The string `toFixed x d` at positive precision `d` is a fixed-point string with exactly
`d` digit characters after the decimal point. -/
lemma toFixed_fracFormatted (x : ℝ) (d : ℕ) (hd : d ≠ 0) :
    fracFormatted (toFixed x d) d := by
  rw [toFixed]
  split
  · have hsplit := fixedNonneg_split (-x) d hd
    have hlist : ("-" ++ fixedNonneg (-x) d).toList =
        ('-' :: (Nat.repr (⌊(-x) * 10 ^ d + 1/2⌋₊ / 10 ^ d)).toList) ++
          '.' :: natDigitsPadded (⌊(-x) * 10 ^ d + 1/2⌋₊ % 10 ^ d) d := by
      show ("-" ++ fixedNonneg (-x) d).data = _
      rw [String.data_append, show ("-" : String).data = ['-'] from rfl,
        show (fixedNonneg (-x) d).data = (fixedNonneg (-x) d).toList from rfl,
        hsplit]
      rfl
    obtain ⟨hfrac, hdot⟩ := fracPart_of_split _ _ _ hlist
      (fun c hc => isDigit_ne_dot c (natDigitsPadded_isDigit _ d c hc))
    exact ⟨hdot, by rw [hfrac, natDigitsPadded_length],
      fun c hc => natDigitsPadded_isDigit _ d c (hfrac ▸ hc)⟩
  · have hsplit := fixedNonneg_split x d hd
    obtain ⟨hfrac, hdot⟩ := fracPart_of_split _ _ _ hsplit
      (fun c hc => isDigit_ne_dot c (natDigitsPadded_isDigit _ d c hc))
    exact ⟨hdot, by rw [hfrac, natDigitsPadded_length],
      fun c hc => natDigitsPadded_isDigit _ d c (hfrac ▸ hc)⟩

/-- On a non-empty buffer the record is the formatted non-sentinel one. -/
lemma analyzeAudio_of_ne (samples : List ℝ) (r : ℝ) (h : samples ≠ []) :
    analyzeAudio samples r =
      { rms := toFixed (rmsVal samples) 3
        peak := toFixed (peakVal samples) 3
        dynamicRange := toFixed (drVal samples) 2
        lufs := toFixed (lufsVal samples) 2
        stereoWidth := stereoWidthVal samples } := by
  rw [analyzeAudio, if_neg (fun hc => h (List.length_eq_zero.mp hc))]

/-- The sentinel string `"0.000"` carries exactly three digit characters
after its decimal point. -/
lemma sentinel_fracFormatted3 : fracFormatted "0.000" 3 := by
  unfold fracFormatted
  decide

/-- The sentinel string `"0.00"` carries exactly two digit characters
after its decimal point. -/
lemma sentinel_fracFormatted2 : fracFormatted "0.00" 2 := by
  unfold fracFormatted
  decide

/-- C9: for every sample buffer (the empty one included) the string fields
of the record carry exactly 3 (`rms`, `peak`) or 2 (`dynamicRange`,
`lufs`) digit characters after the decimal point, and `stereoWidth` stays
numeric: the `0` sentinel or the heuristic value. -/
theorem formatted_field_precision (samples : List ℝ) (r : ℝ) :
    fracFormatted (analyzeAudio samples r).rms 3 ∧
      fracFormatted (analyzeAudio samples r).peak 3 ∧
      fracFormatted (analyzeAudio samples r).dynamicRange 2 ∧
      fracFormatted (analyzeAudio samples r).lufs 2 ∧
      ((analyzeAudio samples r).stereoWidth = 0 ∨
        (analyzeAudio samples r).stereoWidth = stereoWidthVal samples) := by
  by_cases h : samples = []
  · subst h
    have he : analyzeAudio [] r = emptyRecord := by rw [analyzeAudio]; rfl
    rw [he]
    exact ⟨sentinel_fracFormatted3, sentinel_fracFormatted3,
      sentinel_fracFormatted2, sentinel_fracFormatted2, Or.inl rfl⟩
  · rw [analyzeAudio_of_ne samples r h]
    exact ⟨toFixed_fracFormatted _ 3 (by norm_num),
      toFixed_fracFormatted _ 3 (by norm_num),
      toFixed_fracFormatted _ 2 (by norm_num),
      toFixed_fracFormatted _ 2 (by norm_num), Or.inr rfl⟩

end StemTalk
